import Mathlib

/-!
Verification development for the `rosbag2_storage_mcap` storage plugin.

The definitions below are a shallow embedding of the two source files:

* `src/rosbag2_storage_mcap/src/message_definition_cache.cpp` — the message
  definition cache (`parse_dependencies`, `load_message_spec`,
  `get_full_text`);
* the MCAP storage plugin (`MCAPStorage`) — reader state (`has_next` /
  `read_next`), writer state (`create_topic` / `write`), and the topic-filter
  selection of `reset_iterator`.

External collaborators (the `ament_index_cpp` resource lookup together with
`std::ifstream`) are modelled as a finite table `Fs` of definition files: a
file that exists yields its contents, and reading a missing file through
`std::istreambuf_iterator` yields the empty string, exactly as the C++ does.
The unbounded recursion of `get_full_text` is modelled with an explicit fuel
parameter; a theorem below shows the chosen fuel is never exhausted, which is
the termination argument of the original recursion.
-/

namespace Mcap

/-- `MessageDefinitionFormat` from the cache header: the two mutually
exclusive definition dialects. -/
inductive Format where
  | ROS2MSG
  | ROS2IDL
deriving DecidableEq, Repr

/-- Error outcomes of the embedded operations.  `invalidName` models the
`std::invalid_argument("Invalid package resource name: ...")` throw;
`definitionNotFound` models the `DefinitionNotFoundError` that the storage
plugin catches (the cache code under `src/` never constructs it);
`fuelExhausted` is an artifact of the bounded recursion and is proven
unreachable; the remaining constructors model the `std::runtime_error` throws
of `MCAPStorage`. -/
inductive Err where
  | invalidName (s : String)
  | definitionNotFound (s : String)
  | fuelExhausted
  | unknownTopic (s : String)
  | channelMissing (s : String)
  | noMessageAvailable
deriving DecidableEq, Repr

/-! ## Character classes of the three regular expressions -/

/-- The character class `[a-zA-Z0-9_/]` of `MSG_FIELD_TYPE_REGEX` and
`IDL_FIELD_TYPE_REGEX`. -/
def isWordSlashChar (c : Char) : Bool :=
  c.isAlphanum || c = '_' || c = '/'

/-- The character class `[a-zA-Z0-9_]` of `PACKAGE_TYPENAME_REGEX`. -/
def isWordChar (c : Char) : Bool :=
  c.isAlphanum || c = '_'

/-- `\s` of ECMAScript `std::regex` restricted to ASCII input: space, tab,
newline, carriage return, vertical tab, form feed. -/
def isSpaceChar (c : Char) : Bool :=
  c = ' ' || c = '\t' || c = '\n' || c = '\r' || c = '\x0b' || c = '\x0c'

/-! ## `MSG_FIELD_TYPE_REGEX`

`(?:^|\n)\s*([a-zA-Z0-9_/]+)(?:\[[^\]]*\])?\s+` applied through
`std::sregex_iterator`.  Because the character classes `\s`, `[a-zA-Z0-9_/]`
and the bracket group are pairwise disjoint at their boundaries, the
backtracking search is deterministic and is modelled by the direct scan
below: after an anchor (position 0 or a consumed `'\n'`) skip whitespace,
read a non-empty run of word characters (the captured field type), optionally
a complete `[...]` group, then require and consume at least one whitespace
character. -/

/-- The optional array suffix `(?:\[[^\]]*\])?`: if the input starts with a
complete `[...]` group, drop it; otherwise (also when the bracket is never
closed, in which case the optional group matches the empty string) leave the
input unchanged. -/
def dropArraySuffix (cs : List Char) : List Char :=
  match cs with
  | '[' :: rest =>
    let inside := rest.takeWhile (fun c => !(c = ']'))
    match rest.drop inside.length with
    | ']' :: rest2 => rest2
    | _ => cs
  | _ => cs

/-- Attempt the match body right after the `(?:^|\n)` anchor.  On success
returns the captured type token and the remainder of the input after the
(greedy) trailing `\s+`. -/
def msgMatchAfterAnchor (cs : List Char) : Option (String × List Char) :=
  let cs1 := cs.dropWhile isSpaceChar
  let ident := cs1.takeWhile isWordSlashChar
  if ident.isEmpty then none
  else
    let cs3 := dropArraySuffix (cs1.drop ident.length)
    match cs3 with
    | c :: _ =>
      if isSpaceChar c then some (String.mk ident, cs3.dropWhile isSpaceChar) else none
    | [] => none

/-- Successive non-overlapping matches after the first search position: a
match can only start at a `'\n'` character (the `^` alternative matches
nothing past position 0), so the scan walks to each newline and attempts the
match body after it.  The recursion is driven by a fuel of one unit per
input character; `msgMatchAfterAnchor_length` shows every successful match
consumes at least one character, so the fuel `msgScan` supplies never runs
out. -/
def msgScanFuel : Nat → List Char → List String
  | 0, _ => []
  | _ + 1, [] => []
  | fuel + 1, '\n' :: rest =>
    match msgMatchAfterAnchor rest with
    | some (tok, rest') => tok :: msgScanFuel fuel rest'
    | none => msgScanFuel fuel rest
  | fuel + 1, _ :: rest => msgScanFuel fuel rest

def msgScan (cs : List Char) : List String :=
  msgScanFuel cs.length cs

/-- All captures of `MSG_FIELD_TYPE_REGEX` over the text, in match order.
The first attempt is anchored at position 0 (the `^` alternative, whose
following `\s*` subsumes a leading `'\n'`); subsequent attempts at each
newline. -/
def msgFieldTypeTokens (text : String) : List String :=
  match msgMatchAfterAnchor text.toList with
  | some (tok, rest) => tok :: msgScan rest
  | none => msgScan text.toList

/-! ## `IDL_FIELD_TYPE_REGEX`

`(?:^|\n)#include\s+(?:"|<)([a-zA-Z0-9_/]+)\.idl(?:"|>)` applied through
`std::sregex_iterator`. -/

/-- Attempt the IDL match body right after the `(?:^|\n)` anchor: the literal
`#include`, at least one whitespace character, an opening `"` or `<`, the
captured path, the literal `.idl`, and a closing `"` or `>`. -/
def idlMatchAfterAnchor (cs : List Char) : Option (String × List Char) :=
  if cs.take 8 = "#include".toList then
    let cs1 := cs.drop 8
    let sp := cs1.takeWhile isSpaceChar
    if sp.isEmpty then none
    else
      match cs1.drop sp.length with
      | q :: cs2 =>
        if q = '"' || q = '<' then
          let ident := cs2.takeWhile isWordSlashChar
          if ident.isEmpty then none
          else
            let cs3 := cs2.drop ident.length
            if cs3.take 4 = ['.', 'i', 'd', 'l'] then
              match cs3.drop 4 with
              | e :: rest => if e = '"' || e = '>' then some (String.mk ident, rest) else none
              | [] => none
            else none
        else none
      | [] => none
  else none

/-- Successive matches of the IDL include regex: matches past the start can
only begin at a `'\n'`; fuelled like `msgScanFuel`, with
`idlMatchAfterAnchor_length` justifying the fuel. -/
def idlScanFuel : Nat → List Char → List String
  | 0, _ => []
  | _ + 1, [] => []
  | fuel + 1, '\n' :: rest =>
    match idlMatchAfterAnchor rest with
    | some (tok, rest') => tok :: idlScanFuel fuel rest'
    | none => idlScanFuel fuel rest
  | fuel + 1, _ :: rest => idlScanFuel fuel rest

def idlScan (cs : List Char) : List String :=
  idlScanFuel cs.length cs

/-- All captures of `IDL_FIELD_TYPE_REGEX` over the text, in match order. -/
def idlIncludeTokens (text : String) : List String :=
  match idlMatchAfterAnchor text.toList with
  | some (tok, rest) => tok :: idlScan rest
  | none => idlScan text.toList

/-! ## Dependency parsing -/

/-- `PRIMITIVE_TYPES` from the cache source. -/
def PRIMITIVE_TYPES : List String :=
  ["bool", "byte", "char", "float32", "float64", "int8", "uint8",
   "int16", "uint16", "int32", "uint32", "int64", "uint64", "string"]

/-- `std::set<std::string>::insert`: insertion into the sorted,
duplicate-free list that models the set (iteration order of a `std::set` is
the sorted order, which `get_full_text` relies on for determinism). -/
def setInsert (s : String) : List String → List String
  | [] => [s]
  | x :: xs => if s < x then s :: x :: xs else if s = x then x :: xs else x :: setInsert s xs

/-- `parse_msg_dependencies`: every captured field type that is not a
primitive is a dependency; a type without a package qualifier is qualified
with `package_context`. -/
def parse_msg_dependencies (text package_context : String) : List String :=
  (msgFieldTypeTokens text).foldl
    (fun deps type =>
      if type ∈ PRIMITIVE_TYPES then deps
      else if '/' ∈ type.toList then setInsert type deps
      else setInsert (package_context ++ "/" ++ type) deps)
    []

/-- `parse_idl_dependencies`: every captured include path is a dependency. -/
def parse_idl_dependencies (text : String) : List String :=
  (idlIncludeTokens text).foldl (fun deps type => setInsert type deps) []

/-- `parse_dependencies`. -/
def parse_dependencies (format : Format) (text package_context : String) : List String :=
  match format with
  | .ROS2MSG => parse_msg_dependencies text package_context
  | .ROS2IDL => parse_idl_dependencies text

/-! ## `PACKAGE_TYPENAME_REGEX` and the filesystem collaborator -/

/-- Split a character list at every `'/'`, keeping empty segments (the
behavior of `String.splitOn "/"`). -/
def splitSlash : List Char → List (List Char)
  | [] => [[]]
  | '/' :: rest => [] :: splitSlash rest
  | c :: rest =>
    match splitSlash rest with
    | seg :: segs => (c :: seg) :: segs
    | [] => [[c]]

/-- `^([a-zA-Z0-9_]+)/(?:msg/)?([a-zA-Z0-9_]+)$`: on a match, the package
(group 1) and the type stem (group 2). -/
def parsePackageTypename (s : String) : Option (String × String) :=
  let isWordTok (t : List Char) : Bool := !t.isEmpty && t.all isWordChar
  match splitSlash s.toList with
  | [p, t] =>
    if isWordTok p && isWordTok t then some (String.mk p, String.mk t) else none
  | [p, m, t] =>
    if m = ['m', 's', 'g'] && isWordTok p && isWordTok t then
      some (String.mk p, String.mk t)
    else none
  | _ => none

/-- One definition file known to the resource-lookup collaborator: package
share directory `package`, file stem `name`, `format` selecting the `.msg` or
`.idl` extension, and the file contents. -/
structure FsEntry where
  package : String
  name : String
  format : Format
  text : String
deriving DecidableEq, Repr

/-- The modelled filesystem: the finite set of definition files the
collaborator can resolve. -/
abbrev Fs := List FsEntry

/-- Opening `share_dir(package) + "/msg/" + name + extension`: `some` contents
when the file exists, `none` otherwise. -/
def fsRead (fs : Fs) (package name : String) (format : Format) : Option String :=
  (fs.find? (fun e => e.package = package ∧ e.name = name ∧ e.format = format)).map (·.text)

/-- `msg_definition_exists`: validates the type name against
`PACKAGE_TYPENAME_REGEX` (throwing `std::invalid_argument` on a mismatch)
and then tests whether the `.msg` definition file opens. -/
def msg_definition_exists (fs : Fs) (package_resource_name : String) : Except Err Bool :=
  match parsePackageTypename package_resource_name with
  | none => .error (.invalidName package_resource_name)
  | some (package, name) => .ok (fsRead fs package name .ROS2MSG).isSome

/-! ## `MessageSpec` and the cache -/

/-- `DefinitionIdentifier`: the cache key. -/
structure DefinitionIdentifier where
  format : Format
  package_resource_name : String
deriving DecidableEq, Repr

/-- `MessageSpec`: raw definition text plus the dependency set parsed eagerly
at construction time. -/
structure MessageSpec where
  dependencies : List String
  text : String
  format : Format
deriving DecidableEq, Repr

/-- The `MessageSpec` constructor: parses the dependencies of `text` with the
package of the owning type as context. -/
def MessageSpec.make (format : Format) (text package_context : String) : MessageSpec :=
  { dependencies := parse_dependencies format text package_context
    text := text
    format := format }

/-- `msg_specs_by_definition_identifier_`: the memoization map. -/
abbrev Cache := List (DefinitionIdentifier × MessageSpec)

def cacheFind (c : Cache) (id : DefinitionIdentifier) : Option MessageSpec :=
  (c.find? (fun pr => pr.1 = id)).map (·.2)

/-- `MessageDefinitionCache::load_message_spec`.  Returns the spec, the cache
after the call, and the number of reads issued to the resource-lookup
collaborator (`0` on a cache hit, `1` on a miss).  On a miss the name is
validated, the file is read — a missing or unreadable file yields the empty
string, exactly as `std::istreambuf_iterator` over a failed `ifstream` does —
and the constructed spec is memoized. -/
def load_message_spec (fs : Fs) (c : Cache) (id : DefinitionIdentifier) :
    Except Err (MessageSpec × Cache × Nat) :=
  match cacheFind c id with
  | some spec => .ok (spec, c, 0)
  | none =>
    match parsePackageTypename id.package_resource_name with
    | none => .error (.invalidName id.package_resource_name)
    | some (package, name) =>
      let contents := (fsRead fs package name id.format).getD ""
      let spec := MessageSpec.make id.format contents package
      .ok (spec, c ++ [(id, spec)], 1)

/-! ## `get_full_text` -/

/-- The 80-column rule line bracketed by newlines (the C++ writes the 80
equals signs as one string literal). -/
def SEP : String :=
  "\n" ++ String.mk (List.replicate 80 '=') ++ "\n"

/-- The text prefixed to a visited type's definition text: for IDL always the
rule line and `IDL:` header; for MSG the rule line and `MSG:` header only
when output has already been emitted (`!result.empty()`). -/
def separatorFor (format : Format) (result name : String) : String :=
  match format with
  | .ROS2IDL => SEP ++ "IDL: " ++ name ++ "\n"
  | .ROS2MSG => if result = "" then "" else SEP ++ "MSG: " ++ name ++ "\n"

/-- The mutable state of the `get_full_text` traversal: the accumulated
`result` string, the `seen_deps` set, and the cache.  `visited` is a ghost
field recording the order in which `append_recursive` was entered; the C++
keeps no such list, but every visit appends to `result`, so `visited` is
exactly the emission order. -/
structure AState where
  result : String
  seen : List String
  visited : List String
  cache : Cache
deriving DecidableEq, Repr

/-- The recursive lambda `append_recursive` of `get_full_text`, with an
explicit fuel bound on the recursion depth (`gft_fuel_sufficient` below shows
the fuel chosen by `get_full_text` is never exhausted).  A visit loads the
spec, appends the separator/header and the definition text, and then walks
the dependency set in its sorted order, recursing into exactly those
dependencies newly inserted into `seen_deps`. -/
def append_recursive (fs : Fs) (format : Format) :
    Nat → String → AState → Except Err AState
  | 0, _, _ => .error .fuelExhausted
  | fuel + 1, package_resource_name, st =>
    match load_message_spec fs st.cache ⟨format, package_resource_name⟩ with
    | .error e => .error e
    | .ok (spec, cache1, _) =>
      let st1 : AState :=
        { result := st.result ++ separatorFor format st.result package_resource_name ++ spec.text
          seen := st.seen
          visited := st.visited ++ [package_resource_name]
          cache := cache1 }
      spec.dependencies.foldl
        (fun acc dep =>
          match acc with
          | .error e => .error e
          | .ok s =>
            if dep ∈ s.seen then .ok s
            else append_recursive fs format fuel dep { s with seen := dep :: s.seen })
        (.ok st1)

/-- The loop body of the dependency walk, named for use in lemma statements;
`append_recursive_succ` below identifies it with the lambda in the
definition. -/
def depStep (fs : Fs) (format : Format) (fuel : Nat)
    (acc : Except Err AState) (dep : String) : Except Err AState :=
  match acc with
  | .error e => .error e
  | .ok s =>
    if dep ∈ s.seen then .ok s
    else append_recursive fs format fuel dep { s with seen := dep :: s.seen }

/-- Every name the traversal can ever insert into `seen_deps` is a
dependency parsed from some definition file (a name that resolves to no file
reads as the empty string, which has no dependencies).  Together with the
root this bounds the recursion depth. -/
def depsUniverse (fs : Fs) : List String :=
  fs.foldr (fun e acc => parse_dependencies e.format e.text e.package ++ acc) []

/-- The fuel `get_full_text` hands to `append_recursive`: one more than the
number of candidate dependency names plus the root. -/
def gftFuel (fs : Fs) (root : String) : Nat :=
  (root :: depsUniverse fs).length + 1

/-- `MessageDefinitionCache::get_full_text`: decide the format once from the
existence of the root's `.msg` resource, seed `seen_deps` with the root, and
run the recursive append starting at the root. -/
def get_full_text (fs : Fs) (cache : Cache) (root_package_resource_name : String) :
    Except Err (Format × AState) :=
  match msg_definition_exists fs root_package_resource_name with
  | .error e => .error e
  | .ok msg_exists =>
    let format := if msg_exists then Format.ROS2MSG else Format.ROS2IDL
    let st0 : AState :=
      { result := "", seen := [root_package_resource_name], visited := [], cache := cache }
    match append_recursive fs format (gftFuel fs root_package_resource_name)
        root_package_resource_name st0 with
    | .error e => .error e
    | .ok st => .ok (format, st)

/-- The pair `(format, full_text)` that the C++ function returns. -/
def get_full_text_pair (fs : Fs) (cache : Cache) (root : String) :
    Except Err (Format × String) :=
  (get_full_text fs cache root).map (fun p => (p.1, p.2.result))

/-- The format `get_full_text` decides for a valid root name (MSG when the
root's `.msg` resource exists, IDL otherwise). -/
def rootFormat (fs : Fs) (root : String) : Format :=
  match parsePackageTypename root with
  | none => Format.ROS2MSG
  | some (package, name) =>
    if (fsRead fs package name .ROS2MSG).isSome then Format.ROS2MSG else Format.ROS2IDL

/-! ## The container reader (`MCAPStorage` read path)

`linear_iterator_` together with the backing `LinearMessageView` is modelled
as the list of messages the cursor has not yet consumed (`none` when the
recording has not been opened for reading); `next_` is the single pending
message slot. -/

/-- A decoded `rosbag2_storage::SerializedBagMessage`. -/
structure BagMessage where
  topic_name : String
  time_stamp : Int
  data : List Nat
deriving DecidableEq, Repr

structure ReaderState where
  linear_iterator : Option (List BagMessage)
  next_ : Option BagMessage
deriving DecidableEq, Repr

/-- `MCAPStorage::read_and_enqueue_message`: returns `false` when not opened
or at the end; returns `true` without touching the cursor when a message is
already enqueued; otherwise decodes the message under the cursor into
`next_` and advances the iterator. -/
def read_and_enqueue_message (st : ReaderState) : Bool × ReaderState :=
  match st.linear_iterator with
  | none => (false, st)
  | some msgs =>
    if st.next_.isSome then (true, st)
    else
      match msgs with
      | [] => (false, st)
      | m :: rest => (true, { st with next_ := some m, linear_iterator := some rest })

/-- `MCAPStorage::has_next`. -/
def has_next (st : ReaderState) : Bool × ReaderState :=
  match st.linear_iterator with
  | none => (false, st)
  | some _ =>
    if st.next_.isSome then (true, st)
    else read_and_enqueue_message st

/-- `MCAPStorage::read_next`: throws when `has_next` reports false, otherwise
moves the pending message out of the slot. -/
def read_next (st : ReaderState) : Except Err (Option BagMessage) × ReaderState :=
  match has_next st with
  | (false, st1) => (.error .noMessageAvailable, st1)
  | (true, st1) => (.ok st1.next_, { st1 with next_ := none })

/-- The state transformer of one `has_next` call. -/
def hasNextState (st : ReaderState) : ReaderState :=
  (has_next st).2

/-! ## Topic filtering (`MCAPStorage::reset_iterator`)

`reset_iterator` installs at most one `topicFilter` predicate into the read
options: first the exact-match predicate when the `topics` list is
non-empty, then — overwriting it — the regex predicate when `topics_regex`
is non-empty.  The `std::regex` engine is an external collaborator, modelled
as an opaque `regexMatch : pattern → topic → Bool` parameter. -/

structure StorageFilter where
  topics : List String
  topics_regex : String
deriving DecidableEq, Repr

/-- The `options.topicFilter` value `reset_iterator` ends up installing
(`none` models leaving the library default, which admits every topic). -/
def effectiveTopicFilter (regexMatch : String → String → Bool)
    (f : StorageFilter) : Option (String → Bool) :=
  let opt0 : Option (String → Bool) := none
  let opt1 :=
    if f.topics ≠ [] then
      some (fun topic => f.topics.any (fun match_topic => match_topic = topic))
    else opt0
  if f.topics_regex ≠ "" then
    some (fun topic => regexMatch f.topics_regex topic)
  else opt1

/-- Whether a message on `topic` passes the installed filter. -/
def admitsTopic (regexMatch : String → String → Bool)
    (f : StorageFilter) (topic : String) : Bool :=
  match effectiveTopicFilter regexMatch f with
  | none => true
  | some p => p topic

/-! ## The container writer (`MCAPStorage` write path)

`topics_` maps a topic name to its metadata and message count; `schema_ids`
and `channel_ids` mirror the registration maps; `mcap_schemas`,
`mcap_channels` and `written` model the records handed to the external
`mcap::McapWriter`, whose id assignment is sequential from 1. -/

/-- `rosbag2_storage::TopicMetadata`. -/
structure TopicMetadata where
  name : String
  type : String
  serialization_format : String
  offered_qos_profiles : String
deriving DecidableEq, Repr

structure SchemaRec where
  id : Nat
  name : String
  encoding : String
  data : String
deriving DecidableEq, Repr

structure ChannelRec where
  id : Nat
  topic : String
  message_encoding : String
  schema_id : Nat
  qos_metadata : String
deriving DecidableEq, Repr

structure WriterState where
  topics : List (String × TopicMetadata × Nat)
  schema_ids : List (String × Nat)
  channel_ids : List (String × Nat)
  mcap_schemas : List SchemaRec
  mcap_channels : List ChannelRec
  written : List (Nat × Int × List Nat)
  msgdef_cache : Cache
  message_count : Nat
  duration : Int
  starting_time : Int
deriving DecidableEq, Repr

def lookupAssoc (l : List (String × Nat)) (k : String) : Option Nat :=
  (l.find? (fun pr => pr.1 = k)).map (·.2)

def lookupTopic (st : WriterState) (name : String) : Option (TopicMetadata × Nat) :=
  (st.topics.find? (fun pr => pr.1 = name)).map (·.2)

/-- The empty writer right after `open`. -/
def emptyWriter : WriterState :=
  { topics := [], schema_ids := [], channel_ids := [], mcap_schemas := []
    mcap_channels := [], written := [], msgdef_cache := [], message_count := 0
    duration := 0, starting_time := 0 }

/-- The tail of `MCAPStorage::create_topic`: register a channel for the topic
unless one already exists. -/
def addChannelFor (st : WriterState) (topic : TopicMetadata) (schema_id : Nat) :
    Except Err Unit × WriterState :=
  match lookupAssoc st.channel_ids topic.name with
  | some _ => (.ok (), st)
  | none =>
    let channel : ChannelRec :=
      { id := st.mcap_channels.length + 1
        topic := topic.name
        message_encoding := topic.serialization_format
        schema_id := schema_id
        qos_metadata := topic.offered_qos_profiles }
    (.ok (),
      { st with
        mcap_channels := st.mcap_channels ++ [channel]
        channel_ids := st.channel_ids ++ [(topic.name, channel.id)] })

/-- `MCAPStorage::create_topic`.  A second creation of an existing topic name
logs a warning and returns without touching any state.  Otherwise the topic
record is inserted first; the schema step then assembles the full definition
text, catching only `DefinitionNotFoundError` (degrading to an empty-encoding
schema); any other exception — in particular the `std::invalid_argument`
thrown for a malformed type name — propagates, leaving the already-inserted
topic record behind.  The returned state is the object state after the call,
also on the error path. -/
def create_topic (fs : Fs) (st : WriterState) (topic : TopicMetadata) :
    Except Err Unit × WriterState :=
  match lookupTopic st topic.name with
  | some _ => (.ok (), st)
  | none =>
    let st1 := { st with topics := st.topics ++ [(topic.name, topic, 0)] }
    let datatype := topic.type
    match lookupAssoc st1.schema_ids datatype with
    | some schema_id => addChannelFor st1 topic schema_id
    | none =>
      match get_full_text fs st1.msgdef_cache datatype with
      | .ok (format, tstate) =>
        let encoding := match format with
          | .ROS2MSG => "ros2msg"
          | .ROS2IDL => "ros2idl"
        let schema : SchemaRec :=
          { id := st1.mcap_schemas.length + 1, name := datatype
            encoding := encoding, data := tstate.result }
        let st2 :=
          { st1 with
            msgdef_cache := tstate.cache
            mcap_schemas := st1.mcap_schemas ++ [schema]
            schema_ids := st1.schema_ids ++ [(datatype, schema.id)] }
        addChannelFor st2 topic schema.id
      | .error (.definitionNotFound s) =>
        let schema : SchemaRec :=
          { id := st1.mcap_schemas.length + 1, name := datatype
            encoding := "", data := "" }
        let st2 :=
          { st1 with
            mcap_schemas := st1.mcap_schemas ++ [schema]
            schema_ids := st1.schema_ids ++ [(datatype, schema.id)] }
        addChannelFor st2 topic schema.id
      | .error e => (.error e, st1)

/-- `MCAPStorage::write` (single message).  The unknown-topic and
missing-channel checks throw before any mutation; on success the record goes
to the container writer, then the per-topic count, the global count and the
recorded duration are updated. -/
def write (st : WriterState) (msg : BagMessage) : Except Err Unit × WriterState :=
  match lookupTopic st msg.topic_name with
  | none => (.error (.unknownTopic msg.topic_name), st)
  | some _ =>
    match lookupAssoc st.channel_ids msg.topic_name with
    | none => (.error (.channelMissing msg.topic_name), st)
    | some channel_id =>
      (.ok (),
        { st with
          written := st.written ++ [(channel_id, msg.time_stamp, msg.data)]
          topics := st.topics.map (fun pr =>
            if pr.1 = msg.topic_name then (pr.1, pr.2.1, pr.2.2 + 1) else pr)
          message_count := st.message_count + 1
          duration := max st.duration (msg.time_stamp - st.starting_time) })

/-- `MCAPStorage::remove_topic`: erases the topic record only. -/
def remove_topic (st : WriterState) (topic : TopicMetadata) : WriterState :=
  { st with topics := st.topics.filter (fun pr => !(pr.1 = topic.name)) }

/-- The number of topic-count entries held for a name. -/
def topicEntryCount (st : WriterState) (name : String) : Nat :=
  (st.topics.filter (fun pr => pr.1 = name)).length

/-! ## Dependency graphs and blob structure (statement vocabulary) -/

/-- The definition text `load_message_spec` obtains for a name under a fixed
format (the empty string when the name is malformed or the file missing). -/
def textOfName (fs : Fs) (format : Format) (n : String) : String :=
  match parsePackageTypename n with
  | none => ""
  | some (package, name) => (fsRead fs package name format).getD ""

/-- The dependency set of a name under a fixed format: what load builds and
`get_full_text` iterates over. -/
def specDepsOf (fs : Fs) (format : Format) (n : String) : List String :=
  match parsePackageTypename n with
  | none => []
  | some (package, name) =>
    parse_dependencies format ((fsRead fs package name format).getD "") package

/-- The dependency graph reachable from a root under a fixed format. -/
inductive ReachableFrom (fs : Fs) (format : Format) (root : String) : String → Prop
  | root : ReachableFrom fs format root root
  | step {a b : String} : ReachableFrom fs format root a →
      b ∈ specDepsOf fs format a → ReachableFrom fs format root b

/-- The rule line, dialect header and definition text emitted for a
non-initial visit of `name`. -/
def chunkFor (fs : Fs) (format : Format) (name : String) : String :=
  match format with
  | .ROS2MSG => SEP ++ "MSG: " ++ name ++ "\n" ++ textOfName fs format name
  | .ROS2IDL => SEP ++ "IDL: " ++ name ++ "\n" ++ textOfName fs format name

/-- Concatenation of a list of strings. -/
def concatChunks : List String → String
  | [] => ""
  | s :: rest => s ++ concatChunks rest

/-- The full blob as a function of the emission order: in the MSG dialect the
root's raw text first with no separator, every later visit as a headed
chunk; in the IDL dialect every visit, the root included, as a headed
chunk. -/
def blobOf (fs : Fs) (format : Format) : List String → String
  | [] => ""
  | root :: rest =>
    match format with
    | .ROS2MSG => textOfName fs format root ++ concatChunks (rest.map (chunkFor fs format))
    | .ROS2IDL => concatChunks ((root :: rest).map (chunkFor fs format))

/-- A cache state is consistent with the filesystem when every entry is
exactly what a miss of `load_message_spec` would construct for its key —
true of every cache the implementation ever builds. -/
def CacheConsistent (fs : Fs) (c : Cache) : Prop :=
  ∀ pr ∈ c, ∃ package name,
    parsePackageTypename pr.1.package_resource_name = some (package, name) ∧
    pr.2 = MessageSpec.make pr.1.format ((fsRead fs package name pr.1.format).getD "") package

/-- Invariant of the traversal state: the cache agrees with the filesystem,
the ghost visit list has no duplicates and sits inside `seen_deps`, and every
seen name is reachable from the root and belongs to the finite bound `W`. -/
structure TravInv (fs : Fs) (format : Format) (root : String) (W : Finset String)
    (st : AState) : Prop where
  cache_ok : CacheConsistent fs st.cache
  visited_nodup : st.visited.Nodup
  visited_seen : ∀ v ∈ st.visited, v ∈ st.seen
  seen_reach : ∀ s ∈ st.seen, ReachableFrom fs format root s
  seen_W : ∀ s ∈ st.seen, s ∈ W

/-- How one traversal step extends the state: `newv` is the list of names
visited during the step, in order; `seen_deps` grows by exactly those names,
and the dependency sets of all of them end up inside the final seen set. -/
structure TravStep (fs : Fs) (format : Format) (st st' : AState)
    (newv : List String) : Prop where
  visited_eq : st'.visited = st.visited ++ newv
  seen_mono : ∀ x ∈ st.seen, x ∈ st'.seen
  seen_from : ∀ x ∈ st'.seen, x ∈ st.seen ∨ x ∈ newv
  newv_seen : ∀ x ∈ newv, x ∈ st'.seen
  newv_closed : ∀ v ∈ newv, ∀ d ∈ specDepsOf fs format v, d ∈ st'.seen

/-- Induction statement for `append_recursive`: a visit of a seen,
not-yet-visited name with enough fuel succeeds and extends the state by the
visited subtree, appending exactly the headed chunks of the new visits. -/
def PGoal (fs : Fs) (format : Format) (root : String) (W : Finset String)
    (fuel : Nat) : Prop :=
  ∀ name st, TravInv fs format root W st →
    name ∈ st.seen → name ∉ st.visited →
    (W \ st.seen.toFinset).card + 1 ≤ fuel →
    ∃ st' δ, append_recursive fs format fuel name st = .ok st' ∧
      TravStep fs format st st' (name :: δ) ∧
      TravInv fs format root W st' ∧
      st'.result = st.result ++ separatorFor format st.result name ++
        textOfName fs format name ++ concatChunks (δ.map (chunkFor fs format))

/-- Induction statement for the dependency walk (the `foldl` over a spec's
dependency set). -/
def QGoal (fs : Fs) (format : Format) (root : String) (W : Finset String)
    (fuel : Nat) : Prop :=
  ∀ deps st, TravInv fs format root W st →
    (∀ d ∈ deps, d ∈ depsUniverse fs) →
    (∀ d ∈ deps, ReachableFrom fs format root d) →
    (format = .ROS2MSG → st.result ≠ "" ∨ deps = []) →
    (W \ st.seen.toFinset).card ≤ fuel →
    ∃ st' δ, deps.foldl (depStep fs format fuel) (.ok st) = .ok st' ∧
      TravStep fs format st st' δ ∧
      TravInv fs format root W st' ∧
      (∀ d ∈ deps, d ∈ st'.seen) ∧
      st'.result = st.result ++ concatChunks (δ.map (chunkFor fs format))

deriving instance DecidableEq for Except

/-! ## Lemmas: match lengths and the unfolded dependency walk -/

theorem dropArraySuffix_length (cs : List Char) :
    (dropArraySuffix cs).length ≤ cs.length := by
  unfold dropArraySuffix
  split
  · next rest =>
    dsimp only
    split
    · next rest2 hd =>
      have h1 : (rest.drop (rest.takeWhile (fun c => !(c = ']'))).length).length ≤
          rest.length := by
        rw [List.length_drop]; omega
      rw [hd] at h1
      simp only [List.length_cons] at h1 ⊢
      omega
    · exact le_refl _
  · exact le_refl _

theorem msgMatchAfterAnchor_length {cs : List Char} {t : String} {r : List Char}
    (h : msgMatchAfterAnchor cs = some (t, r)) : r.length < cs.length := by
  have hcs1len : (cs.dropWhile isSpaceChar).length ≤ cs.length :=
    (List.dropWhile_sublist _).length_le
  have hident_le : ((cs.dropWhile isSpaceChar).takeWhile isWordSlashChar).length ≤
      (cs.dropWhile isSpaceChar).length :=
    (List.takeWhile_sublist _).length_le
  have hcs3len : (dropArraySuffix ((cs.dropWhile isSpaceChar).drop
      ((cs.dropWhile isSpaceChar).takeWhile isWordSlashChar).length)).length ≤
      (cs.dropWhile isSpaceChar).length -
      ((cs.dropWhile isSpaceChar).takeWhile isWordSlashChar).length := by
    calc (dropArraySuffix ((cs.dropWhile isSpaceChar).drop
          ((cs.dropWhile isSpaceChar).takeWhile isWordSlashChar).length)).length
        ≤ ((cs.dropWhile isSpaceChar).drop
          ((cs.dropWhile isSpaceChar).takeWhile isWordSlashChar).length).length :=
          dropArraySuffix_length _
      _ = _ := List.length_drop _ _
  unfold msgMatchAfterAnchor at h
  dsimp only at h
  split at h
  · exact absurd h (by simp)
  · next hid =>
    have hidlen : 0 <
        ((cs.dropWhile isSpaceChar).takeWhile isWordSlashChar).length := by
      cases hi : (cs.dropWhile isSpaceChar).takeWhile isWordSlashChar with
      | nil => rw [hi] at hid; simp at hid
      | cons a l => simp [hi]
    split at h
    · next c rest hc =>
      split at h
      · next hsp =>
        have hr : r = List.dropWhile isSpaceChar (dropArraySuffix
            ((cs.dropWhile isSpaceChar).drop
              ((cs.dropWhile isSpaceChar).takeWhile isWordSlashChar).length)) := by
          have h' := h
          simp only [Option.some.injEq, Prod.mk.injEq] at h'
          exact h'.2.symm
        have hr_le : r.length ≤ (dropArraySuffix
            ((cs.dropWhile isSpaceChar).drop
              ((cs.dropWhile isSpaceChar).takeWhile isWordSlashChar).length)).length := by
          rw [hr]; exact (List.dropWhile_sublist _).length_le
        omega
      · exact absurd h (by simp)
    · exact absurd h (by simp)

theorem idlMatchAfterAnchor_length {cs : List Char} {t : String} {r : List Char}
    (h : idlMatchAfterAnchor cs = some (t, r)) : r.length < cs.length := by
  unfold idlMatchAfterAnchor at h
  dsimp only at h
  split at h
  · next h8 =>
    have hcslen : 8 ≤ cs.length := by
      have hl := congrArg List.length h8
      rw [List.length_take] at hl
      have h8len : ("#include".toList).length = 8 := rfl
      rw [h8len] at hl
      omega
    split at h
    · exact absurd h (by simp)
    · next hspe =>
      have hsplen : 0 < ((cs.drop 8).takeWhile isSpaceChar).length := by
        cases hs : (cs.drop 8).takeWhile isSpaceChar with
        | nil => rw [hs] at hspe; simp at hspe
        | cons a l => simp [hs]
      have hsp_le : ((cs.drop 8).takeWhile isSpaceChar).length ≤ (cs.drop 8).length :=
        (List.takeWhile_sublist _).length_le
      split at h
      · next q cs2 hq =>
        have hcs2len : cs2.length + 1 =
            (cs.drop 8).length - ((cs.drop 8).takeWhile isSpaceChar).length := by
          have h1 := List.length_drop ((cs.drop 8).takeWhile isSpaceChar).length (cs.drop 8)
          rw [hq] at h1
          simp only [List.length_cons] at h1
          omega
        split at h
        · split at h
          · exact absurd h (by simp)
          · next hide =>
            have hid_le : (cs2.takeWhile isWordSlashChar).length ≤ cs2.length :=
              (List.takeWhile_sublist _).length_le
            split at h
            · next h4 =>
              split at h
              · next e rest he =>
                split at h
                · have hr : r = rest := by
                    have := h
                    simp only [Option.some.injEq, Prod.mk.injEq] at this
                    exact this.2.symm
                  subst hr
                  have h1 := List.length_drop 4
                    (cs2.drop (cs2.takeWhile isWordSlashChar).length)
                  rw [he] at h1
                  simp only [List.length_cons] at h1
                  have h2 := List.length_drop (cs2.takeWhile isWordSlashChar).length cs2
                  have h3 := List.length_drop 8 cs
                  omega
                · exact absurd h (by simp)
              · exact absurd h (by simp)
            · exact absurd h (by simp)
        · exact absurd h (by simp)
      · exact absurd h (by simp)
  · exact absurd h (by simp)

theorem append_recursive_succ (fs : Fs) (format : Format) (fuel : Nat)
    (name : String) (st : AState) :
    append_recursive fs format (fuel + 1) name st =
      match load_message_spec fs st.cache ⟨format, name⟩ with
      | .error e => .error e
      | .ok (spec, cache1, _) =>
        spec.dependencies.foldl (depStep fs format fuel)
          (.ok { result := st.result ++ separatorFor format st.result name ++ spec.text
                 seen := st.seen
                 visited := st.visited ++ [name]
                 cache := cache1 }) := rfl

/-! ## Reader lemmas -/

/-- One `has_next` call brings the reader to a state that `has_next` leaves
fixed, reporting the same availability. -/
theorem has_next_fix (st : ReaderState) :
    has_next (hasNextState st) = ((has_next st).1, hasNextState st) := by
  match hli : st.linear_iterator with
  | none => simp [hasNextState, has_next, read_and_enqueue_message, hli]
  | some msgs =>
    match hnx : st.next_ with
    | some m => simp [hasNextState, has_next, read_and_enqueue_message, hli, hnx]
    | none =>
      match msgs with
      | [] => simp [hasNextState, has_next, read_and_enqueue_message, hli, hnx]
      | m :: rest => simp [hasNextState, has_next, read_and_enqueue_message, hli, hnx]

theorem hasNextState_iterate_fix (st : ReaderState) (n : Nat) :
    hasNextState^[n] (hasNextState st) = hasNextState st := by
  induction n with
  | zero => rfl
  | succ k ih =>
    rw [Function.iterate_succ_apply, show hasNextState (hasNextState st) = hasNextState st from
      congrArg Prod.snd (has_next_fix st), ih]

/-! ## Claim theorems: reader -/

/-- C6: for every opened reader state, calling `has_next` any number of times
without an intervening `read_next` leaves the cursor and the pending slot
fixed after the first call: every call returns the same availability, and
when it is `true` the subsequent `read_next` hands back exactly the message
the first `has_next` buffered. -/
theorem C6_has_next_idempotent (st : ReaderState) (n : Nat) :
    (has_next (hasNextState^[n] (hasNextState st))).1 = (has_next st).1 ∧
    hasNextState^[n] (hasNextState st) = hasNextState st ∧
    ((has_next st).1 = true →
      read_next (hasNextState^[n] (hasNextState st)) =
        (.ok (hasNextState st).next_, { hasNextState st with next_ := none })) := by
  have hiter := hasNextState_iterate_fix st n
  have hfix := has_next_fix st
  refine ⟨?_, hiter, ?_⟩
  · rw [hiter, hfix]
  · intro htrue
    rw [hiter]
    unfold read_next
    rw [hfix, htrue]

/-- Witness for C6: a concrete opened reader holding one message. -/
theorem C6_has_next_idempotent_witness :
    (has_next (hasNextState^[2] (hasNextState
        ⟨some [⟨"/a", 5, [1]⟩], none⟩))).1 = (has_next ⟨some [⟨"/a", 5, [1]⟩], none⟩).1 ∧
    hasNextState^[2] (hasNextState ⟨some [⟨"/a", 5, [1]⟩], none⟩) =
      hasNextState ⟨some [⟨"/a", 5, [1]⟩], none⟩ ∧
    ((has_next ⟨some [⟨"/a", 5, [1]⟩], none⟩).1 = true →
      read_next (hasNextState^[2] (hasNextState ⟨some [⟨"/a", 5, [1]⟩], none⟩)) =
        (.ok (hasNextState ⟨some [⟨"/a", 5, [1]⟩], none⟩).next_,
          { hasNextState ⟨some [⟨"/a", 5, [1]⟩], none⟩ with next_ := none })) :=
  C6_has_next_idempotent ⟨some [⟨"/a", 5, [1]⟩], none⟩ 2

/-! ## Claim theorems: writer -/

/-- C7: writing a message whose topic has no entry in the session topic map
fails with the unknown-topic error and leaves the writer state — in
particular every per-topic message count and the global message count —
exactly unchanged. -/
theorem C7_write_unknown_topic_atomic (st : WriterState) (msg : BagMessage)
    (h : lookupTopic st msg.topic_name = none) :
    write st msg = (.error (.unknownTopic msg.topic_name), st) ∧
    (write st msg).2.topics = st.topics ∧
    (write st msg).2.message_count = st.message_count := by
  unfold write
  rw [h]
  exact ⟨rfl, rfl, rfl⟩

/-- Witness for C7: an empty writer session and a message on `"/a"`. -/
theorem C7_write_unknown_topic_atomic_witness :
    write emptyWriter ⟨"/a", 3, [2]⟩ = (.error (.unknownTopic "/a"), emptyWriter) ∧
    (write emptyWriter ⟨"/a", 3, [2]⟩).2.topics = emptyWriter.topics ∧
    (write emptyWriter ⟨"/a", 3, [2]⟩).2.message_count = emptyWriter.message_count :=
  C7_write_unknown_topic_atomic emptyWriter ⟨"/a", 3, [2]⟩ (by decide)

/-- C8: re-creating a topic name that already has an entry never throws and
performs no state change at all (beyond the logged warning), so exactly as
many topic-count entries remain for that name as before. -/
theorem C8_create_topic_idempotent (fs : Fs) (st : WriterState) (tm : TopicMetadata)
    (x : TopicMetadata × Nat) (h : lookupTopic st tm.name = some x) :
    create_topic fs st tm = (.ok (), st) ∧
    topicEntryCount (create_topic fs st tm).2 tm.name = topicEntryCount st tm.name := by
  unfold create_topic
  rw [h]
  exact ⟨rfl, rfl⟩

/-- Witness for C8: creating `"/a"` twice leaves one topic-count entry. -/
theorem C8_create_topic_idempotent_witness :
    create_topic [] (create_topic [] emptyWriter ⟨"/a", "p/T", "cdr", ""⟩).2
        ⟨"/a", "p/T", "cdr", ""⟩ =
      (.ok (), (create_topic [] emptyWriter ⟨"/a", "p/T", "cdr", ""⟩).2) ∧
    topicEntryCount (create_topic [] emptyWriter ⟨"/a", "p/T", "cdr", ""⟩).2 "/a" = 1 :=
  ⟨(C8_create_topic_idempotent [] (create_topic [] emptyWriter ⟨"/a", "p/T", "cdr", ""⟩).2
      ⟨"/a", "p/T", "cdr", ""⟩ (⟨"/a", "p/T", "cdr", ""⟩, 0) (by decide)).1,
    by decide⟩

/-- C9: when the active filter has both a non-empty exact-match topic list
and a non-empty topics regex, the rebuilt cursor applies only the regex
predicate: admission equals the regex test for every topic, so a topic
matching the regex is admitted even when absent from the list, and a listed
topic failing the regex is excluded. -/
theorem C9_regex_replaces_topic_list (regexMatch : String → String → Bool)
    (f : StorageFilter) (h1 : f.topics ≠ []) (h2 : f.topics_regex ≠ "") :
    (∀ t, admitsTopic regexMatch f t = regexMatch f.topics_regex t) ∧
    (∀ t, regexMatch f.topics_regex t = true → t ∉ f.topics →
      admitsTopic regexMatch f t = true) ∧
    (∀ t, t ∈ f.topics → regexMatch f.topics_regex t = false →
      admitsTopic regexMatch f t = false) := by
  have key : ∀ t, admitsTopic regexMatch f t = regexMatch f.topics_regex t := by
    intro t
    unfold admitsTopic effectiveTopicFilter
    simp [h2]
  exact ⟨key, fun t ht _ => (key t).trans ht, fun t _ ht => (key t).trans ht⟩

/-- Witness for C9: with list `["/y"]` and a regex matched only by `"/x"`,
`"/x"` is admitted and `"/y"` excluded. -/
theorem C9_regex_replaces_topic_list_witness :
    admitsTopic (fun _ s => s = "/x") ⟨["/y"], "^/x$"⟩ "/x" = true ∧
    admitsTopic (fun _ s => s = "/x") ⟨["/y"], "^/x$"⟩ "/y" = false := by
  have h := C9_regex_replaces_topic_list (fun _ s => s = "/x") ⟨["/y"], "^/x$"⟩
    (by decide) (by decide)
  exact ⟨(h.1 "/x").trans (by decide), (h.1 "/y").trans (by decide)⟩

/-! ## Cache lemmas -/

theorem get_full_text_invalid_root (fs : Fs) (cache : Cache) (root : String)
    (h : parsePackageTypename root = none) :
    get_full_text fs cache root = .error (.invalidName root) := by
  unfold get_full_text msg_definition_exists
  rw [h]

theorem cacheFind_append_self (c : Cache) (id : DefinitionIdentifier) (spec : MessageSpec)
    (h : cacheFind c id = none) : cacheFind (c ++ [(id, spec)]) id = some spec := by
  unfold cacheFind at h ⊢
  rw [List.find?_append]
  rw [Option.map_eq_none'] at h
  rw [h]
  simp [List.find?]

/-- C4: loading the same `DefinitionIdentifier` again with the cache produced
by the first call returns the identical `MessageSpec` (same text, same
dependency set), leaves the cache untouched, and issues zero reads to the
resource-lookup collaborator. -/
theorem C4_load_message_spec_memoized (fs : Fs) (c : Cache) (id : DefinitionIdentifier)
    (spec : MessageSpec) (c1 : Cache) (k : Nat)
    (h : load_message_spec fs c id = .ok (spec, c1, k)) :
    load_message_spec fs c1 id = .ok (spec, c1, 0) := by
  unfold load_message_spec at h ⊢
  match hf : cacheFind c id with
  | some s =>
    rw [hf] at h
    simp only [Except.ok.injEq, Prod.mk.injEq] at h
    obtain ⟨hs, hc, -⟩ := h
    subst hs; subst hc
    rw [hf]
  | none =>
    rw [hf] at h
    match hp : parsePackageTypename id.package_resource_name with
    | none => rw [hp] at h; exact absurd h (by simp)
    | some (package, name) =>
      rw [hp] at h
      simp only [Except.ok.injEq, Prod.mk.injEq] at h
      obtain ⟨hs, hc, -⟩ := h
      have hfind : cacheFind c1 id = some spec := by
        rw [← hc, ← hs]
        exact cacheFind_append_self c id _ hf
      rw [hfind]

/-- Witness for C4: a miss followed by a hit on a one-file filesystem. -/
theorem C4_load_message_spec_memoized_witness :
    load_message_spec [⟨"p", "T", .ROS2MSG, "int32 x\n"⟩]
        ((load_message_spec [⟨"p", "T", .ROS2MSG, "int32 x\n"⟩] [] ⟨.ROS2MSG, "p/T"⟩).toOption.map
          (fun r => r.2.1) |>.getD []) ⟨.ROS2MSG, "p/T"⟩ =
      .ok (MessageSpec.make .ROS2MSG "int32 x\n" "p",
        [(⟨.ROS2MSG, "p/T"⟩, MessageSpec.make .ROS2MSG "int32 x\n" "p")], 0) :=
  C4_load_message_spec_memoized [⟨"p", "T", .ROS2MSG, "int32 x\n"⟩] [] ⟨.ROS2MSG, "p/T"⟩
    (MessageSpec.make .ROS2MSG "int32 x\n" "p")
    [(⟨.ROS2MSG, "p/T"⟩, MessageSpec.make .ROS2MSG "int32 x\n" "p")] 1 (by decide)

/-- C10: creating a fresh topic whose type name is malformed propagates the
invalid-identifier error but leaves the topic-count entry inserted at the
start of the call in the map, so a later write to that topic fails at the
missing-channel check rather than the unknown-topic check. -/
theorem C10_create_topic_partial_on_invalid_type (fs : Fs) (st : WriterState)
    (tm : TopicMetadata)
    (h1 : lookupTopic st tm.name = none)
    (h2 : lookupAssoc st.schema_ids tm.type = none)
    (h3 : parsePackageTypename tm.type = none)
    (h4 : lookupAssoc st.channel_ids tm.name = none) :
    create_topic fs st tm =
      (.error (.invalidName tm.type), { st with topics := st.topics ++ [(tm.name, tm, 0)] }) ∧
    (∀ msg : BagMessage, msg.topic_name = tm.name →
      write { st with topics := st.topics ++ [(tm.name, tm, 0)] } msg =
        (.error (.channelMissing tm.name),
          { st with topics := st.topics ++ [(tm.name, tm, 0)] })) := by
  have hlook : lookupTopic { st with topics := st.topics ++ [(tm.name, tm, 0)] } tm.name =
      some (tm, 0) := by
    unfold lookupTopic at h1 ⊢
    rw [Option.map_eq_none'] at h1
    rw [List.find?_append, h1]
    simp [List.find?]
  constructor
  · unfold create_topic
    rw [h1]
    simp only
    rw [h2, get_full_text_invalid_root fs _ _ h3]
  · intro msg hm
    unfold write
    rw [hm, hlook, h4]

/-! ## Parser lemmas -/

theorem mem_setInsert {x s : String} {l : List String} :
    x ∈ setInsert s l ↔ x = s ∨ x ∈ l := by
  induction l with
  | nil => simp [setInsert]
  | cons y ys ih =>
    unfold setInsert
    by_cases h1 : s < y
    · simp [h1]
    · by_cases h2 : s = y
      · subst h2
        simp only [h1, if_false, if_true]
        constructor
        · intro hx; exact Or.inr hx
        · intro hx
          rcases hx with hx | hx
          · subst hx; exact List.mem_cons_self _ _
          · exact hx
      · simp only [h1, h2, if_false, List.mem_cons, ih]
        constructor
        · rintro (hx | hx | hx)
          · exact Or.inr (Or.inl hx)
          · exact Or.inl hx
          · exact Or.inr (Or.inr hx)
        · rintro (hx | hx | hx)
          · exact Or.inr (Or.inl hx)
          · exact Or.inl hx
          · exact Or.inr (Or.inr hx)

/-- Membership in the accumulator fold of `parse_msg_dependencies`. -/
theorem mem_parse_msg_foldl (package_context : String) (toks : List String)
    (acc : List String) (d : String) :
    d ∈ toks.foldl
        (fun deps type =>
          if type ∈ PRIMITIVE_TYPES then deps
          else if '/' ∈ type.toList then setInsert type deps
          else setInsert (package_context ++ "/" ++ type) deps)
        acc ↔
      d ∈ acc ∨ ∃ t ∈ toks, t ∉ PRIMITIVE_TYPES ∧
        d = (if '/' ∈ t.toList then t else package_context ++ "/" ++ t) := by
  induction toks generalizing acc with
  | nil => simp
  | cons t ts ih =>
    simp only [List.foldl_cons, List.mem_cons, ih]
    by_cases hp : t ∈ PRIMITIVE_TYPES
    · simp only [hp, if_true]
      constructor
      · rintro (hd | hd)
        · exact Or.inl hd
        · obtain ⟨u, hu, hnp, he⟩ := hd
          exact Or.inr ⟨u, Or.inr hu, hnp, he⟩
      · rintro (hd | hd)
        · exact Or.inl hd
        · obtain ⟨u, hu, hnp, he⟩ := hd
          rcases hu with hu | hu
          · subst hu; exact absurd hp hnp
          · exact Or.inr ⟨u, hu, hnp, he⟩
    · have hstep : ∀ l : List String,
          d ∈ (if '/' ∈ t.toList then setInsert t l
            else setInsert (package_context ++ "/" ++ t) l) ↔
          d = (if '/' ∈ t.toList then t else package_context ++ "/" ++ t) ∨ d ∈ l := by
        intro l
        by_cases hs : '/' ∈ t.toList
        · rw [if_pos hs, if_pos hs, mem_setInsert]
        · rw [if_neg hs, if_neg hs, mem_setInsert]
      simp only [hp, if_false, hstep]
      constructor
      · rintro (hd | hd)
        · rcases hd with hd | hd
          · exact Or.inr ⟨t, Or.inl rfl, hp, hd⟩
          · exact Or.inl hd
        · obtain ⟨u, hu, hnp, he⟩ := hd
          exact Or.inr ⟨u, Or.inr hu, hnp, he⟩
      · rintro (hd | hd)
        · exact Or.inl (Or.inr hd)
        · obtain ⟨u, hu, hnp, he⟩ := hd
          rcases hu with hu | hu
          · subst hu; exact Or.inl (Or.inl he)
          · exact Or.inr ⟨u, hu, hnp, he⟩

theorem mem_parse_msg_dependencies {text package_context d : String} :
    d ∈ parse_msg_dependencies text package_context ↔
      ∃ t ∈ msgFieldTypeTokens text, t ∉ PRIMITIVE_TYPES ∧
        d = (if '/' ∈ t.toList then t else package_context ++ "/" ++ t) := by
  unfold parse_msg_dependencies
  rw [mem_parse_msg_foldl]
  simp

/-- No primitive type name contains a slash. -/
theorem primitive_no_slash : ∀ p ∈ PRIMITIVE_TYPES, '/' ∉ p.toList := by decide

/-- C5: for every MSG-format text and package context, the parsed dependency
set contains no primitive scalar type name; every captured field-type token
that is neither primitive nor package-qualified appears in the set qualified
with the package context, and every already-qualified non-primitive token
appears unchanged. -/
theorem C5_parse_msg_dependencies_qualified (text package_context : String) :
    (∀ d ∈ parse_dependencies .ROS2MSG text package_context, d ∉ PRIMITIVE_TYPES) ∧
    (∀ t ∈ msgFieldTypeTokens text, t ∉ PRIMITIVE_TYPES →
      ('/' ∈ t.toList → t ∈ parse_dependencies .ROS2MSG text package_context) ∧
      ('/' ∉ t.toList →
        package_context ++ "/" ++ t ∈ parse_dependencies .ROS2MSG text package_context)) := by
  constructor
  · intro d hd
    rw [show parse_dependencies .ROS2MSG text package_context =
        parse_msg_dependencies text package_context from rfl,
      mem_parse_msg_dependencies] at hd
    obtain ⟨t, -, hnp, he⟩ := hd
    by_cases hs : '/' ∈ t.toList
    · rw [he, if_pos hs]; exact hnp
    · rw [he, if_neg hs]
      intro hmem
      have hslash : '/' ∈ (package_context ++ "/" ++ t).toList := by
        have heq : (package_context ++ "/" ++ t).toList =
            package_context.toList ++ '/' :: t.toList := by
          simp [String.toList, String.data_append]
        rw [heq]
        simp
      exact primitive_no_slash _ hmem hslash
  · intro t ht hnp
    constructor
    · intro hs
      rw [show parse_dependencies .ROS2MSG text package_context =
          parse_msg_dependencies text package_context from rfl,
        mem_parse_msg_dependencies]
      exact ⟨t, ht, hnp, by rw [if_pos hs]⟩
    · intro hs
      rw [show parse_dependencies .ROS2MSG text package_context =
          parse_msg_dependencies text package_context from rfl,
        mem_parse_msg_dependencies]
      exact ⟨t, ht, hnp, by rw [if_neg hs]⟩

/-- Witness for C5: the text declares fields of type `Bar` (unqualified),
`pkg_b/Baz` (qualified) and `int32` (primitive) in package `pkg_a`. -/
theorem C5_parse_msg_dependencies_qualified_witness :
    "pkg_a/Bar" ∈ parse_dependencies .ROS2MSG "Bar x\npkg_b/Baz y\nint32 z\n" "pkg_a" ∧
    "pkg_b/Baz" ∈ parse_dependencies .ROS2MSG "Bar x\npkg_b/Baz y\nint32 z\n" "pkg_a" ∧
    (∀ d ∈ parse_dependencies .ROS2MSG "Bar x\npkg_b/Baz y\nint32 z\n" "pkg_a",
      d ∉ PRIMITIVE_TYPES) := by
  have h := C5_parse_msg_dependencies_qualified "Bar x\npkg_b/Baz y\nint32 z\n" "pkg_a"
  refine ⟨((h.2 "Bar" (by decide) (by decide)).2 (by decide) : _), ?_, h.1⟩
  exact (h.2 "pkg_b/Baz" (by decide) (by decide)).1 (by decide)

/-! ## Traversal lemmas -/

theorem concatChunks_append (a b : List String) :
    concatChunks (a ++ b) = concatChunks a ++ concatChunks b := by
  induction a with
  | nil =>
    show concatChunks b = "" ++ concatChunks b
    rw [show ∀ s : String, "" ++ s = s from fun s => rfl]
  | cons x xs ih =>
    show x ++ concatChunks (xs ++ b) = x ++ concatChunks xs ++ concatChunks b
    rw [ih, String.append_assoc]

theorem string_length_pos_of_ne (s : String) (h : s ≠ "") : 0 < s.length := by
  cases s with
  | mk data =>
    cases data with
    | nil => exact absurd rfl h
    | cons c cs => simp [String.length]

theorem append_ne_empty_of_left (a b : String) (h : a ≠ "") : a ++ b ≠ "" := by
  intro he
  have hl := congrArg String.length he
  rw [String.length_append] at hl
  have := string_length_pos_of_ne a h
  rw [show ("" : String).length = 0 from rfl] at hl
  omega

theorem append_ne_empty_of_right (a b : String) (h : b ≠ "") : a ++ b ≠ "" := by
  intro he
  have hl := congrArg String.length he
  rw [String.length_append] at hl
  have := string_length_pos_of_ne b h
  rw [show ("" : String).length = 0 from rfl] at hl
  omega

theorem parse_dependencies_empty (format : Format) (package_context : String) :
    parse_dependencies format "" package_context = [] := by
  cases format <;> rfl

/-- Membership in `depsUniverse` comes from membership in some file's parsed
dependency set. -/
theorem mem_depsUniverse {fs : Fs} {e : FsEntry} {d : String} (he : e ∈ fs)
    (hd : d ∈ parse_dependencies e.format e.text e.package) : d ∈ depsUniverse fs := by
  induction fs with
  | nil => cases he
  | cons e0 rest ih =>
    unfold depsUniverse
    rcases List.mem_cons.mp he with h0 | h0
    · subst h0
      exact List.mem_append.mpr (Or.inl hd)
    · exact List.mem_append.mpr (Or.inr (ih h0))

theorem specDepsOf_subset_universe (fs : Fs) (format : Format) (n d : String)
    (hd : d ∈ specDepsOf fs format n) : d ∈ depsUniverse fs := by
  unfold specDepsOf at hd
  match hp : parsePackageTypename n with
  | none => rw [hp] at hd; cases hd
  | some (package, tyname) =>
    rw [hp] at hd
    dsimp only at hd
    match hr : fsRead fs package tyname format with
    | none =>
      rw [hr] at hd
      rw [show (Option.getD (none : Option String) "") = "" from rfl,
        parse_dependencies_empty] at hd
      cases hd
    | some txt =>
      rw [hr] at hd
      unfold fsRead at hr
      match hfind : fs.find? (fun e =>
          e.package = package ∧ e.name = tyname ∧ e.format = format) with
      | none => rw [hfind] at hr; cases hr
      | some e =>
        rw [hfind] at hr
        have hmem : e ∈ fs := List.mem_of_find?_eq_some hfind
        have hprop := List.find?_some hfind
        simp only [decide_eq_true_eq] at hprop
        obtain ⟨hpk, hnm, hfm⟩ := hprop
        have htxt : e.text = txt := by
          simp only [Option.map_some'] at hr
          exact Option.some.inj hr
        have : d ∈ parse_dependencies e.format e.text e.package := by
          rw [hpk, hfm, htxt]
          simpa using hd
        exact mem_depsUniverse hmem this

/-- What `load_message_spec` returns for a well-formed name under a
consistent cache: the spec a miss would construct, with the cache still
consistent afterwards. -/
theorem load_message_spec_ok (fs : Fs) (c : Cache) (format : Format)
    (name package tyname : String) (hc : CacheConsistent fs c)
    (hp : parsePackageTypename name = some (package, tyname)) :
    ∃ c1 k, load_message_spec fs c ⟨format, name⟩ =
      .ok (MessageSpec.make format ((fsRead fs package tyname format).getD "") package,
        c1, k) ∧
      CacheConsistent fs c1 := by
  unfold load_message_spec
  match hf : cacheFind c ⟨format, name⟩ with
  | some s =>
    refine ⟨c, 0, ?_, hc⟩
    unfold cacheFind at hf
    match hfind : c.find? (fun pr => pr.1 = (⟨format, name⟩ : DefinitionIdentifier)) with
    | none => rw [hfind] at hf; cases hf
    | some pr =>
      rw [hfind] at hf
      simp only [Option.map_some'] at hf
      have hs : pr.2 = s := Option.some.inj hf
      have hmem : pr ∈ c := List.mem_of_find?_eq_some hfind
      have hkey : pr.1 = (⟨format, name⟩ : DefinitionIdentifier) := by
        have := List.find?_some hfind
        simpa using this
      obtain ⟨package', tyname', hp', hspec⟩ := hc pr hmem
      rw [hkey] at hp' hspec
      simp only at hp' hspec
      rw [hp] at hp'
      have hpk : package' = package := (Prod.mk.injEq _ _ _ _).mp (Option.some.inj hp') |>.1.symm
      have htn : tyname' = tyname := (Prod.mk.injEq _ _ _ _).mp (Option.some.inj hp') |>.2.symm
      rw [hs.symm, hspec, hpk, htn]
  | none =>
    rw [hp]
    refine ⟨c ++ [(⟨format, name⟩,
      MessageSpec.make format ((fsRead fs package tyname format).getD "") package)], 1,
      rfl, ?_⟩
    intro pr hpr
    rcases List.mem_append.mp hpr with h0 | h0
    · exact hc pr h0
    · rcases List.mem_singleton.mp h0 with rfl
      exact ⟨package, tyname, hp, rfl⟩

/-- The dependency and text fields of the spec `load_message_spec` builds. -/
theorem make_dependencies_eq (fs : Fs) (format : Format) (name package tyname : String)
    (hp : parsePackageTypename name = some (package, tyname)) :
    (MessageSpec.make format ((fsRead fs package tyname format).getD "") package).dependencies =
      specDepsOf fs format name ∧
    (MessageSpec.make format ((fsRead fs package tyname format).getD "") package).text =
      textOfName fs format name := by
  unfold specDepsOf textOfName
  rw [hp]
  exact ⟨rfl, rfl⟩

theorem sdiff_insert_card {W s : Finset String} {d : String}
    (hW : d ∈ W) (hs : d ∉ s) :
    (W \ insert d s).card + 1 = (W \ s).card := by
  have hd : d ∈ W \ s := Finset.mem_sdiff.mpr ⟨hW, hs⟩
  have hrw : W \ insert d s = (W \ s).erase d := by
    ext x
    simp only [Finset.mem_sdiff, Finset.mem_insert, Finset.mem_erase]
    tauto
  rw [hrw, Finset.card_erase_of_mem hd]
  have : 0 < (W \ s).card := Finset.card_pos.mpr ⟨d, hd⟩
  omega

/-- The separator plus definition text of a非-initial visit is exactly the
headed chunk (for MSG this needs the running result to be non-empty). -/
theorem separator_chunk (fs : Fs) (format : Format) (res name : String)
    (h : format = .ROS2MSG → res ≠ "") :
    separatorFor format res name ++ textOfName fs format name = chunkFor fs format name := by
  cases format with
  | ROS2IDL => rfl
  | ROS2MSG =>
    unfold separatorFor chunkFor
    rw [if_neg (h rfl)]

theorem string_append_empty (s : String) : s ++ "" = s := by
  cases s with
  | mk data =>
    show String.mk (data ++ []) = String.mk data
    rw [List.append_nil]

theorem trav_P_zero (fs : Fs) (format : Format) (root : String) (W : Finset String) :
    PGoal fs format root W 0 := by
  intro name st hinv hseen hnv hfuel
  exact absurd hfuel (by omega)

theorem trav_Q_of_P (fs : Fs) (format : Format) (root : String) (W : Finset String)
    (hU : ∀ d ∈ depsUniverse fs, d ∈ W)
    (fuel : Nat) (hP : PGoal fs format root W fuel) :
    QGoal fs format root W fuel := by
  intro deps
  induction deps with
  | nil =>
    intro st hinv hdU hdR hne hfuel
    refine ⟨st, [], rfl, ?_, hinv, ?_, ?_⟩
    · exact ⟨(List.append_nil _).symm, fun x hx => hx, fun x hx => Or.inl hx,
        fun x hx => absurd hx (List.not_mem_nil x),
        fun v hv => absurd hv (List.not_mem_nil v)⟩
    · intro d hd; cases hd
    · exact (string_append_empty st.result).symm
  | cons dep rest ih =>
    intro st hinv hdU hdR hne hfuel
    rw [List.foldl_cons]
    by_cases hmem : dep ∈ st.seen
    · have hstep : depStep fs format fuel (.ok st) dep = .ok st := by
        simp [depStep, hmem]
      rw [hstep]
      have hne' : format = .ROS2MSG → st.result ≠ "" ∨ rest = [] := by
        intro hm
        rcases hne hm with h | h
        · exact Or.inl h
        · cases h
      obtain ⟨st', δ, hfold, hstep', hinv', hdeps', hres⟩ :=
        ih st hinv (fun d hd => hdU d (List.mem_cons_of_mem _ hd))
          (fun d hd => hdR d (List.mem_cons_of_mem _ hd)) hne' hfuel
      refine ⟨st', δ, hfold, hstep', hinv', ?_, hres⟩
      intro d hd
      rcases List.mem_cons.mp hd with rfl | hd
      · exact hstep'.seen_mono _ hmem
      · exact hdeps' d hd
    · have hdW : dep ∈ W := hU dep (hdU dep (List.mem_cons_self _ _))
      have hdepR : ReachableFrom fs format root dep := hdR dep (List.mem_cons_self _ _)
      have hstep : depStep fs format fuel (.ok st) dep =
          append_recursive fs format fuel dep { st with seen := dep :: st.seen } := by
        simp [depStep, hmem]
      have hinv2 : TravInv fs format root W { st with seen := dep :: st.seen } := by
        refine ⟨hinv.cache_ok, hinv.visited_nodup,
          fun v hv => List.mem_cons_of_mem _ (hinv.visited_seen v hv), ?_, ?_⟩
        · intro s hs
          rcases List.mem_cons.mp hs with rfl | hs
          · exact hdepR
          · exact hinv.seen_reach s hs
        · intro s hs
          rcases List.mem_cons.mp hs with rfl | hs
          · exact hdW
          · exact hinv.seen_W s hs
      have hnv2 : dep ∉ ({ st with seen := dep :: st.seen } : AState).visited :=
        fun hv => hmem (hinv.visited_seen dep hv)
      have hnotF : dep ∉ st.seen.toFinset := by
        rw [List.mem_toFinset]; exact hmem
      have hcard := sdiff_insert_card hdW hnotF
      have hfuel2 :
          (W \ ({ st with seen := dep :: st.seen } : AState).seen.toFinset).card + 1 ≤ fuel := by
        show (W \ (dep :: st.seen).toFinset).card + 1 ≤ fuel
        rw [List.toFinset_cons]
        omega
      obtain ⟨st3, δ1, hA, hS1, hinv3, hres3⟩ :=
        hP dep { st with seen := dep :: st.seen } hinv2 (List.mem_cons_self _ _) hnv2 hfuel2
      rw [hstep, hA]
      have hsep : format = .ROS2MSG → st.result ≠ "" := by
        intro hm
        rcases hne hm with h | h
        · exact h
        · cases h
      have hne3 : format = .ROS2MSG → st3.result ≠ "" ∨ rest = [] := by
        intro hm
        left
        rw [hres3]
        exact append_ne_empty_of_left _ _ (append_ne_empty_of_left _ _
          (append_ne_empty_of_left _ _ (hsep hm)))
      have hfuel3 : (W \ st3.seen.toFinset).card ≤ fuel := by
        have hsub : W \ st3.seen.toFinset ⊆ W \ (dep :: st.seen).toFinset := by
          intro x hx
          rw [Finset.mem_sdiff] at hx ⊢
          refine ⟨hx.1, fun hmem2 => hx.2 ?_⟩
          rw [List.mem_toFinset] at hmem2 ⊢
          exact hS1.seen_mono x hmem2
        have hcard2 := Finset.card_le_card hsub
        rw [List.toFinset_cons] at hcard2
        omega
      obtain ⟨st4, δ2, hfold4, hS2, hinv4, hdeps4, hres4⟩ :=
        ih st3 hinv3 (fun d hd => hdU d (List.mem_cons_of_mem _ hd))
          (fun d hd => hdR d (List.mem_cons_of_mem _ hd)) hne3 hfuel3
      refine ⟨st4, (dep :: δ1) ++ δ2, hfold4, ?_, hinv4, ?_, ?_⟩
      · refine ⟨?_, ?_, ?_, ?_, ?_⟩
        · rw [hS2.visited_eq, hS1.visited_eq]
          show st.visited ++ (dep :: δ1) ++ δ2 = st.visited ++ ((dep :: δ1) ++ δ2)
          rw [List.append_assoc]
        · intro x hx
          exact hS2.seen_mono x (hS1.seen_mono x (List.mem_cons_of_mem _ hx))
        · intro x hx
          rcases hS2.seen_from x hx with h | h
          · rcases hS1.seen_from x h with h2 | h2
            · rcases List.mem_cons.mp h2 with rfl | h3
              · exact Or.inr (List.mem_append.mpr (Or.inl (List.mem_cons_self _ _)))
              · exact Or.inl h3
            · exact Or.inr (List.mem_append.mpr (Or.inl h2))
          · exact Or.inr (List.mem_append.mpr (Or.inr h))
        · intro x hx
          rcases List.mem_append.mp hx with h | h
          · exact hS2.seen_mono x (hS1.newv_seen x h)
          · exact hS2.newv_seen x h
        · intro v hv d hd
          rcases List.mem_append.mp hv with h | h
          · exact hS2.seen_mono d (hS1.newv_closed v h d hd)
          · exact hS2.newv_closed v h d hd
      · intro d hd
        rcases List.mem_cons.mp hd with rfl | hd
        · exact hS2.seen_mono d (hS1.seen_mono d (List.mem_cons_self _ _))
        · exact hdeps4 d hd
      · rw [hres4, hres3]
        show st.result ++ separatorFor format st.result dep ++ textOfName fs format dep ++
            concatChunks (δ1.map (chunkFor fs format)) ++
            concatChunks (δ2.map (chunkFor fs format)) =
          st.result ++ concatChunks (((dep :: δ1) ++ δ2).map (chunkFor fs format))
        rw [List.map_append, concatChunks_append, List.map_cons,
          show concatChunks (chunkFor fs format dep :: δ1.map (chunkFor fs format)) =
            chunkFor fs format dep ++ concatChunks (δ1.map (chunkFor fs format)) from rfl,
          ← separator_chunk fs format st.result dep hsep]
        simp only [String.append_assoc]

theorem trav_P_succ (fs : Fs) (format : Format) (root : String) (W : Finset String)
    (hU : ∀ d ∈ depsUniverse fs, d ∈ W)
    (hvalid : ∀ n, ReachableFrom fs format root n → (parsePackageTypename n).isSome = true)
    (fuel : Nat) (hQ : QGoal fs format root W fuel) :
    PGoal fs format root W (fuel + 1) := by
  intro name st hinv hseen hnv hfuel
  have hreach : ReachableFrom fs format root name := hinv.seen_reach name hseen
  have hps := hvalid name hreach
  match hp : parsePackageTypename name with
  | none => rw [hp] at hps; cases hps
  | some (package, tyname) =>
    obtain ⟨c1, k, hload, hc1⟩ :=
      load_message_spec_ok fs st.cache format name package tyname hinv.cache_ok hp
    obtain ⟨hdeps_eq, htext_eq⟩ := make_dependencies_eq fs format name package tyname hp
    rw [append_recursive_succ, hload]
    have hinv1 : TravInv fs format root W
        { result := st.result ++ separatorFor format st.result name ++
            (MessageSpec.make format ((fsRead fs package tyname format).getD "") package).text
          seen := st.seen
          visited := st.visited ++ [name]
          cache := c1 } := by
      refine ⟨hc1, ?_, ?_, hinv.seen_reach, hinv.seen_W⟩
      · show (st.visited ++ [name]).Nodup
        rw [List.nodup_append]
        exact ⟨hinv.visited_nodup, List.nodup_singleton _,
          by simpa [List.disjoint_singleton] using hnv⟩
      · intro v hv
        rcases List.mem_append.mp hv with h | h
        · exact hinv.visited_seen v h
        · rcases List.mem_singleton.mp h with rfl
          exact hseen
    have hdU1 : ∀ d ∈ (MessageSpec.make format
        ((fsRead fs package tyname format).getD "") package).dependencies,
        d ∈ depsUniverse fs := by
      rw [hdeps_eq]
      exact fun d hd => specDepsOf_subset_universe fs format name d hd
    have hdR1 : ∀ d ∈ (MessageSpec.make format
        ((fsRead fs package tyname format).getD "") package).dependencies,
        ReachableFrom fs format root d := by
      rw [hdeps_eq]
      exact fun d hd => ReachableFrom.step hreach hd
    have hne1 : format = .ROS2MSG →
        st.result ++ separatorFor format st.result name ++
          (MessageSpec.make format ((fsRead fs package tyname format).getD "") package).text
            ≠ "" ∨
        (MessageSpec.make format
          ((fsRead fs package tyname format).getD "") package).dependencies = [] := by
      intro hm
      by_cases ht : (MessageSpec.make format
          ((fsRead fs package tyname format).getD "") package).text = ""
      · right
        show parse_dependencies format
          ((fsRead fs package tyname format).getD "") package = []
        have : ((fsRead fs package tyname format).getD "") = "" := ht
        rw [this, parse_dependencies_empty]
      · left
        exact append_ne_empty_of_right _ _ ht
    have hfuel1 : (W \ st.seen.toFinset).card ≤ fuel := by omega
    obtain ⟨st', δ, hfold, hS, hinv', hdeps_end, hres⟩ :=
      hQ (MessageSpec.make format ((fsRead fs package tyname format).getD "")
          package).dependencies
        { result := st.result ++ separatorFor format st.result name ++
            (MessageSpec.make format ((fsRead fs package tyname format).getD "") package).text
          seen := st.seen
          visited := st.visited ++ [name]
          cache := c1 }
        hinv1 hdU1 hdR1 hne1 hfuel1
    refine ⟨st', δ, hfold, ?_, hinv', ?_⟩
    · refine ⟨?_, hS.seen_mono, ?_, ?_, ?_⟩
      · rw [hS.visited_eq]
        show st.visited ++ [name] ++ δ = st.visited ++ (name :: δ)
        rw [List.append_assoc]
        rfl
      · intro x hx
        rcases hS.seen_from x hx with h | h
        · exact Or.inl h
        · exact Or.inr (List.mem_cons_of_mem _ h)
      · intro x hx
        rcases List.mem_cons.mp hx with rfl | h
        · exact hS.seen_mono x hseen
        · exact hS.newv_seen x h
      · intro v hv d hd
        rcases List.mem_cons.mp hv with rfl | h
        · rw [← hdeps_eq] at hd
          exact hdeps_end d hd
        · exact hS.newv_closed v h d hd
    · rw [hres, htext_eq]

/-- The main traversal induction: the fuel bound together with the seen-set
discipline makes every `append_recursive` call succeed and emit exactly the
new visits. -/
theorem trav_main (fs : Fs) (format : Format) (root : String) (W : Finset String)
    (hU : ∀ d ∈ depsUniverse fs, d ∈ W)
    (hvalid : ∀ n, ReachableFrom fs format root n → (parsePackageTypename n).isSome = true) :
    ∀ fuel, PGoal fs format root W fuel := by
  intro fuel
  induction fuel with
  | zero => exact trav_P_zero fs format root W
  | succ k ih =>
    exact trav_P_succ fs format root W hU hvalid k
      (trav_Q_of_P fs format root W hU k ih)

theorem string_empty_append (s : String) : "" ++ s = s := by
  cases s with
  | mk data => rfl

theorem get_full_text_unfold (fs : Fs) (cache : Cache) (root package tyname : String)
    (hp : parsePackageTypename root = some (package, tyname)) :
    get_full_text fs cache root =
      match append_recursive fs (rootFormat fs root) (gftFuel fs root) root
          { result := "", seen := [root], visited := [], cache := cache } with
      | .error e => .error e
      | .ok st => .ok (rootFormat fs root, st) := by
  unfold get_full_text msg_definition_exists rootFormat
  rw [hp]

/-- The top-level application of the traversal induction to `get_full_text`:
with a consistent cache, a well-formed root and well-formed reachable names,
the call succeeds; the emission order starts at the root, has no duplicates,
coincides with `seen_deps` up to the seeding, is closed under dependencies,
and determines the result string. -/
theorem get_full_text_ok (fs : Fs) (cache : Cache) (root package tyname : String)
    (hc : CacheConsistent fs cache)
    (hp : parsePackageTypename root = some (package, tyname))
    (hvalid : ∀ n, ReachableFrom fs (rootFormat fs root) root n →
      (parsePackageTypename n).isSome = true) :
    ∃ st δ, get_full_text fs cache root = .ok (rootFormat fs root, st) ∧
      st.visited = root :: δ ∧
      st.visited.Nodup ∧
      (∀ v ∈ st.visited, v ∈ st.seen) ∧
      (∀ s ∈ st.seen, s ∈ st.visited) ∧
      (∀ v ∈ st.visited, ∀ d ∈ specDepsOf fs (rootFormat fs root) v, d ∈ st.seen) ∧
      (∀ s ∈ st.seen, ReachableFrom fs (rootFormat fs root) root s) ∧
      st.result = "" ++ separatorFor (rootFormat fs root) "" root ++
        textOfName fs (rootFormat fs root) root ++
        concatChunks (δ.map (chunkFor fs (rootFormat fs root))) := by
  have hU : ∀ d ∈ depsUniverse fs, d ∈ (root :: depsUniverse fs).toFinset := by
    intro d hd
    rw [List.mem_toFinset]
    exact List.mem_cons_of_mem _ hd
  have hinv0 : TravInv fs (rootFormat fs root) root (root :: depsUniverse fs).toFinset
      { result := "", seen := [root], visited := [], cache := cache } := by
    refine ⟨hc, List.nodup_nil, ?_, ?_, ?_⟩
    · intro v hv; cases hv
    · intro s hs
      rcases List.mem_cons.mp hs with rfl | hs
      · exact ReachableFrom.root
      · cases hs
    · intro s hs
      rcases List.mem_cons.mp hs with rfl | hs
      · rw [List.mem_toFinset]; exact List.mem_cons_self _ _
      · cases hs
  have hrootW : root ∈ (root :: depsUniverse fs).toFinset := by
    rw [List.mem_toFinset]; exact List.mem_cons_self _ _
  have hfuel : ((root :: depsUniverse fs).toFinset \
      ([root] : List String).toFinset).card + 1 ≤ gftFuel fs root := by
    have hsub : ([root] : List String).toFinset ⊆ (root :: depsUniverse fs).toFinset := by
      intro x hx
      rw [List.mem_toFinset] at hx ⊢
      rcases List.mem_singleton.mp hx with rfl
      exact List.mem_cons_self _ _
    rw [Finset.card_sdiff hsub]
    have h1 : (root :: depsUniverse fs).toFinset.card ≤ (root :: depsUniverse fs).length :=
      List.toFinset_card_le _
    have h2 : (([root] : List String).toFinset).card = 1 := rfl
    unfold gftFuel
    omega
  obtain ⟨st, δ, hA, hS, hinv', hres⟩ :=
    trav_main fs (rootFormat fs root) root (root :: depsUniverse fs).toFinset hU hvalid
      (gftFuel fs root) root
      { result := "", seen := [root], visited := [], cache := cache }
      hinv0 (List.mem_cons_self _ _) (List.not_mem_nil _) hfuel
  have hvis : st.visited = root :: δ := by
    have := hS.visited_eq
    simpa using this
  refine ⟨st, δ, ?_, hvis, hinv'.visited_nodup, hinv'.visited_seen, ?_, ?_,
    hinv'.seen_reach, hres⟩
  · rw [get_full_text_unfold fs cache root package tyname hp, hA]
  · intro s hs
    rcases hS.seen_from s hs with h | h
    · rcases List.mem_singleton.mp h with rfl
      rw [hvis]; exact List.mem_cons_self _ _
    · rw [hvis]; exact h
  · intro v hv d hd
    rw [hvis] at hv
    exact hS.newv_closed v hv d hd

/-- The root-visit prefix rendered by `get_full_text` equals the blob shape
of the emission order. -/
theorem blob_shape (fs : Fs) (format : Format) (root : String) (δ : List String) :
    "" ++ separatorFor format "" root ++ textOfName fs format root ++
      concatChunks (δ.map (chunkFor fs format)) = blobOf fs format (root :: δ) := by
  cases format with
  | ROS2MSG =>
    unfold separatorFor blobOf
    dsimp only
    rw [if_pos rfl, string_empty_append, string_empty_append]
  | ROS2IDL =>
    unfold separatorFor blobOf chunkFor
    dsimp only
    simp only [string_empty_append, List.map_cons, concatChunks, String.append_assoc]

/-- C1: for every dependency graph reachable from a well-formed root —
cyclic and diamond graphs included — `get_full_text` terminates with a
result (the fuelled recursion never exhausts its bound), and its emission
order lists each distinct reachable type exactly once (no duplicates, and a
name is emitted iff it is reachable), the blob being the concatenation of
those visits' definition texts. -/
theorem C1_get_full_text_closure (fs : Fs) (cache : Cache) (root : String)
    (hc : CacheConsistent fs cache)
    (hroot : (parsePackageTypename root).isSome = true)
    (hvalid : ∀ n, ReachableFrom fs (rootFormat fs root) root n →
      (parsePackageTypename n).isSome = true) :
    ∃ st, get_full_text fs cache root = .ok (rootFormat fs root, st) ∧
      st.visited.Nodup ∧
      (∀ n, n ∈ st.visited ↔ ReachableFrom fs (rootFormat fs root) root n) ∧
      st.result = blobOf fs (rootFormat fs root) st.visited := by
  match hp : parsePackageTypename root with
  | none => rw [hp] at hroot; cases hroot
  | some (package, tyname) =>
    obtain ⟨st, δ, hok, hvis, hnd, hvs, hsv, hcl, hsr, hres⟩ :=
      get_full_text_ok fs cache root package tyname hc hp hvalid
    refine ⟨st, hok, hnd, ?_, ?_⟩
    · intro n
      constructor
      · intro hn
        exact hsr n (hvs n hn)
      · intro hn
        induction hn with
        | root => rw [hvis]; exact List.mem_cons_self _ _
        | step ha hb ih => exact hsv _ (hcl _ ih _ hb)
    · rw [hres, hvis, blob_shape]

/-- Witness for C1: the cyclic graph `pkg/A → pkg/B → pkg/A`. -/
theorem C1_get_full_text_closure_witness :
    ∃ st, get_full_text [⟨"pkg", "A", .ROS2MSG, "pkg/B b\n"⟩,
        ⟨"pkg", "B", .ROS2MSG, "pkg/A a\n"⟩] [] "pkg/A" =
      .ok (rootFormat [⟨"pkg", "A", .ROS2MSG, "pkg/B b\n"⟩,
        ⟨"pkg", "B", .ROS2MSG, "pkg/A a\n"⟩] "pkg/A", st) ∧
      st.visited.Nodup ∧
      (∀ n, n ∈ st.visited ↔ ReachableFrom [⟨"pkg", "A", .ROS2MSG, "pkg/B b\n"⟩,
        ⟨"pkg", "B", .ROS2MSG, "pkg/A a\n"⟩]
        (rootFormat [⟨"pkg", "A", .ROS2MSG, "pkg/B b\n"⟩,
          ⟨"pkg", "B", .ROS2MSG, "pkg/A a\n"⟩] "pkg/A") "pkg/A" n) ∧
      st.result = blobOf [⟨"pkg", "A", .ROS2MSG, "pkg/B b\n"⟩,
        ⟨"pkg", "B", .ROS2MSG, "pkg/A a\n"⟩]
        (rootFormat [⟨"pkg", "A", .ROS2MSG, "pkg/B b\n"⟩,
          ⟨"pkg", "B", .ROS2MSG, "pkg/A a\n"⟩] "pkg/A") st.visited := by
  refine C1_get_full_text_closure _ [] "pkg/A" ?_ (by decide) ?_
  · intro pr hpr; cases hpr
  · have hfmt : rootFormat [⟨"pkg", "A", .ROS2MSG, "pkg/B b\n"⟩,
        ⟨"pkg", "B", .ROS2MSG, "pkg/A a\n"⟩] "pkg/A" = .ROS2MSG := by decide
    have hsub : ∀ n, ReachableFrom [⟨"pkg", "A", .ROS2MSG, "pkg/B b\n"⟩,
        ⟨"pkg", "B", .ROS2MSG, "pkg/A a\n"⟩]
        (rootFormat [⟨"pkg", "A", .ROS2MSG, "pkg/B b\n"⟩,
          ⟨"pkg", "B", .ROS2MSG, "pkg/A a\n"⟩] "pkg/A") "pkg/A" n →
        n = "pkg/A" ∨ n = "pkg/B" := by
      intro n h
      induction h with
      | root => exact Or.inl rfl
      | step ha hb ih =>
        rw [hfmt] at hb
        rcases ih with rfl | rfl
        · rw [show specDepsOf [⟨"pkg", "A", .ROS2MSG, "pkg/B b\n"⟩,
              ⟨"pkg", "B", .ROS2MSG, "pkg/A a\n"⟩] .ROS2MSG "pkg/A" = ["pkg/B"]
              from by decide] at hb
          exact Or.inr (List.mem_singleton.mp hb)
        · rw [show specDepsOf [⟨"pkg", "A", .ROS2MSG, "pkg/B b\n"⟩,
              ⟨"pkg", "B", .ROS2MSG, "pkg/A a\n"⟩] .ROS2MSG "pkg/B" = ["pkg/A"]
              from by decide] at hb
          exact Or.inl (List.mem_singleton.mp hb)
    intro n hn
    rcases hsub n hn with rfl | rfl
    · decide
    · decide

/-- C2 is false as stated: in the IDL dialect even the root's text is
preceded by the rule line and `IDL:` header.  Concretely, with a single IDL
definition `pkg_x/Foo` whose raw text is `"x"`, the blob starts with the
separator, not with the root text. -/
theorem C2_idl_root_headed_counterexample :
    get_full_text_pair [⟨"pkg_x", "Foo", .ROS2IDL, "x"⟩] [] "pkg_x/Foo" =
      .ok (.ROS2IDL, SEP ++ "IDL: pkg_x/Foo\n" ++ "x") ∧
    ¬ ("x".toList <+: (SEP ++ "IDL: pkg_x/Foo\n" ++ "x").toList) := by
  constructor
  · decide
  · decide

/-- C2 (amended): the blob returned by `get_full_text` begins with the root
definition's raw text with no separator before it in the MSG dialect, every
subsequently visited dependency's text being preceded by the rule line and a
`MSG:` header naming it; in the IDL dialect every visited type — the root
included — is preceded by the rule line and an `IDL:` header. -/
theorem C2_blob_structure (fs : Fs) (cache : Cache) (root : String)
    (hc : CacheConsistent fs cache)
    (hroot : (parsePackageTypename root).isSome = true)
    (hvalid : ∀ n, ReachableFrom fs (rootFormat fs root) root n →
      (parsePackageTypename n).isSome = true) :
    ∃ st rest, get_full_text fs cache root = .ok (rootFormat fs root, st) ∧
      st.visited = root :: rest ∧
      (rootFormat fs root = .ROS2MSG →
        st.result = textOfName fs (rootFormat fs root) root ++
          concatChunks (rest.map (chunkFor fs (rootFormat fs root)))) ∧
      (rootFormat fs root = .ROS2IDL →
        st.result = concatChunks ((root :: rest).map (chunkFor fs (rootFormat fs root)))) := by
  match hp : parsePackageTypename root with
  | none => rw [hp] at hroot; cases hroot
  | some (package, tyname) =>
    obtain ⟨st, δ, hok, hvis, -, -, -, -, -, hres⟩ :=
      get_full_text_ok fs cache root package tyname hc hp hvalid
    refine ⟨st, δ, hok, hvis, ?_, ?_⟩
    · intro hm
      rw [hres, blob_shape, hm]
      rfl
    · intro hm
      rw [hres, blob_shape, hm]
      rfl

/-- Witness for the amended C2: the spec's own example — MSG root
`pkg_a/Foo` with body `pkg_b/Bar data\nstring name\n` and `pkg_b/Bar` with
body `int32 x\n`. -/
theorem C2_blob_structure_witness :
    ∃ st rest, get_full_text [⟨"pkg_a", "Foo", .ROS2MSG, "pkg_b/Bar data\nstring name\n"⟩,
        ⟨"pkg_b", "Bar", .ROS2MSG, "int32 x\n"⟩] [] "pkg_a/Foo" =
      .ok (rootFormat [⟨"pkg_a", "Foo", .ROS2MSG, "pkg_b/Bar data\nstring name\n"⟩,
        ⟨"pkg_b", "Bar", .ROS2MSG, "int32 x\n"⟩] "pkg_a/Foo", st) ∧
      st.visited = "pkg_a/Foo" :: rest ∧
      (rootFormat [⟨"pkg_a", "Foo", .ROS2MSG, "pkg_b/Bar data\nstring name\n"⟩,
          ⟨"pkg_b", "Bar", .ROS2MSG, "int32 x\n"⟩] "pkg_a/Foo" = .ROS2MSG →
        st.result = textOfName [⟨"pkg_a", "Foo", .ROS2MSG, "pkg_b/Bar data\nstring name\n"⟩,
            ⟨"pkg_b", "Bar", .ROS2MSG, "int32 x\n"⟩]
          (rootFormat [⟨"pkg_a", "Foo", .ROS2MSG, "pkg_b/Bar data\nstring name\n"⟩,
            ⟨"pkg_b", "Bar", .ROS2MSG, "int32 x\n"⟩] "pkg_a/Foo") "pkg_a/Foo" ++
          concatChunks (rest.map (chunkFor
            [⟨"pkg_a", "Foo", .ROS2MSG, "pkg_b/Bar data\nstring name\n"⟩,
              ⟨"pkg_b", "Bar", .ROS2MSG, "int32 x\n"⟩]
            (rootFormat [⟨"pkg_a", "Foo", .ROS2MSG, "pkg_b/Bar data\nstring name\n"⟩,
              ⟨"pkg_b", "Bar", .ROS2MSG, "int32 x\n"⟩] "pkg_a/Foo")))) ∧
      (rootFormat [⟨"pkg_a", "Foo", .ROS2MSG, "pkg_b/Bar data\nstring name\n"⟩,
          ⟨"pkg_b", "Bar", .ROS2MSG, "int32 x\n"⟩] "pkg_a/Foo" = .ROS2IDL →
        st.result = concatChunks (("pkg_a/Foo" :: rest).map (chunkFor
          [⟨"pkg_a", "Foo", .ROS2MSG, "pkg_b/Bar data\nstring name\n"⟩,
            ⟨"pkg_b", "Bar", .ROS2MSG, "int32 x\n"⟩]
          (rootFormat [⟨"pkg_a", "Foo", .ROS2MSG, "pkg_b/Bar data\nstring name\n"⟩,
            ⟨"pkg_b", "Bar", .ROS2MSG, "int32 x\n"⟩] "pkg_a/Foo")))) := by
  refine C2_blob_structure _ [] "pkg_a/Foo" ?_ (by decide) ?_
  · intro pr hpr; cases hpr
  · have hfmt : rootFormat [⟨"pkg_a", "Foo", .ROS2MSG, "pkg_b/Bar data\nstring name\n"⟩,
        ⟨"pkg_b", "Bar", .ROS2MSG, "int32 x\n"⟩] "pkg_a/Foo" = .ROS2MSG := by decide
    have hsub : ∀ n, ReachableFrom [⟨"pkg_a", "Foo", .ROS2MSG, "pkg_b/Bar data\nstring name\n"⟩,
        ⟨"pkg_b", "Bar", .ROS2MSG, "int32 x\n"⟩]
        (rootFormat [⟨"pkg_a", "Foo", .ROS2MSG, "pkg_b/Bar data\nstring name\n"⟩,
          ⟨"pkg_b", "Bar", .ROS2MSG, "int32 x\n"⟩] "pkg_a/Foo") "pkg_a/Foo" n →
        n = "pkg_a/Foo" ∨ n = "pkg_b/Bar" := by
      intro n h
      induction h with
      | root => exact Or.inl rfl
      | step ha hb ih =>
        rw [hfmt] at hb
        rcases ih with rfl | rfl
        · rw [show specDepsOf [⟨"pkg_a", "Foo", .ROS2MSG, "pkg_b/Bar data\nstring name\n"⟩,
              ⟨"pkg_b", "Bar", .ROS2MSG, "int32 x\n"⟩] .ROS2MSG "pkg_a/Foo" = ["pkg_b/Bar"]
              from by decide] at hb
          exact Or.inr (List.mem_singleton.mp hb)
        · rw [show specDepsOf [⟨"pkg_a", "Foo", .ROS2MSG, "pkg_b/Bar data\nstring name\n"⟩,
              ⟨"pkg_b", "Bar", .ROS2MSG, "int32 x\n"⟩] .ROS2MSG "pkg_b/Bar" = []
              from by decide] at hb
          cases hb
    intro n hn
    rcases hsub n hn with rfl | rfl
    · decide
    · decide

/-- C3: a dependency reachable from the root whose definition file does not
exist is NOT reported through a `DefinitionNotFound` error — the cache code
under `src/` reads the missing file as the empty string and `get_full_text`
succeeds, emitting the dependency's header with empty text.  Here
`pkg_b/Bar` has no definition file, yet the call returns `.ok` with nothing
after the `MSG: pkg_b/Bar` header.  The storage plugin's `create_topic`
catches `DefinitionNotFoundError` from exactly this call, so the spec
describes the intended contract and the cache code omits the
file-existence check. -/
theorem C3_missing_dependency_reads_empty :
    get_full_text_pair [⟨"pkg_a", "Foo", .ROS2MSG, "pkg_b/Bar data\nstring name\n"⟩] []
        "pkg_a/Foo" =
      .ok (.ROS2MSG, "pkg_b/Bar data\nstring name\n" ++ SEP ++ "MSG: pkg_b/Bar\n" ++ "") := by
  decide

/-- Witness for C10: a fresh writer, topic `"/a"` with malformed type
`"bad name"`, then a write to `"/a"`. -/
theorem C10_create_topic_partial_on_invalid_type_witness :
    create_topic [] emptyWriter ⟨"/a", "bad name", "cdr", ""⟩ =
      (.error (.invalidName "bad name"),
        { emptyWriter with topics := emptyWriter.topics ++ [("/a", ⟨"/a", "bad name", "cdr", ""⟩, 0)] }) ∧
    write { emptyWriter with
        topics := emptyWriter.topics ++ [("/a", ⟨"/a", "bad name", "cdr", ""⟩, 0)] }
        ⟨"/a", 0, []⟩ =
      (.error (.channelMissing "/a"),
        { emptyWriter with
          topics := emptyWriter.topics ++ [("/a", ⟨"/a", "bad name", "cdr", ""⟩, 0)] }) := by
  have h := C10_create_topic_partial_on_invalid_type [] emptyWriter
    ⟨"/a", "bad name", "cdr", ""⟩ (by decide) (by decide) (by decide) (by decide)
  exact ⟨h.1, h.2 ⟨"/a", 0, []⟩ rfl⟩

end Mcap
